import Mathlib

/-!
# Verification of `MapReader.interpolate_nodes` (strava-art-generator, src/map_reader.py)

Shallow embedding of the node-interpolation ("densification") algorithm of
`MapReader.interpolate_nodes` together with the helper `distance` function.

Modelling conventions:
* Python floats are modelled as exact rationals (`ℚ`).  The only two uses of
  real-valued arithmetic in the source are the comparison `dist > step_size`
  and the floor division `dist // step_size`, where
  `dist = sqrt((ax-bx)^2 + (ay-by)^2)`.  Both are expressed exactly over `ℚ`
  via the squared distance (`distGtStep`) and an exact integer
  floor of `sqrt(d2)/step` (`floorDistDiv`), so no real `sqrt` is needed.
* The Python dict `self._node_coordinates` is modelled as an association list
  with most-recent-binding-first lookup (`lookupC`), which matches dict
  `get`/assignment semantics.
* `modified_overpass_result = self._overpass_result.copy()` is a *shallow*
  copy: the `"elements"` list is shared.  Hence the outer `for` loop iterates
  over the very list that is being appended to, and all appends/mutations act
  on a single list.  `goElems` models this with an explicit index into the
  single evolving list.
* The network fallback `self._get_node_lat_lon(node)["elements"][0]` is
  modelled as an injected total oracle `fetch : Int → ℚ × ℚ`.
* Exceptions (`ZeroDivisionError` from `dist // 0`, `ValueError` from
  `np.linspace` with a negative sample count, `IndexError` from
  `way_nodes[-1]` on an empty list, `KeyError` from a missing `"nodes"` key)
  are modelled with `Except Err`.  File output (`write_to_file`) is I/O and
  is not modelled.
-/

set_option maxRecDepth 100000

namespace StravaArt

/-- Python exceptions that `interpolate_nodes` can raise. -/
inductive Err where
  | divByZero
  | valueError
  | indexError
  | keyError
deriving Repr, DecidableEq

/-- One element of the Overpass result set, a Python dict.  `etype` is the
`"type"` entry (`"node"`, `"way"`, `"relation"`, ...), `nodes` is `some l`
when the dict has a `"nodes"` key (ways; also any element that has been
written to by the rewrite loop at the end of `interpolate_nodes`).  `lat`/`lon`
are meaningful for node elements. -/
structure Element where
  etype : String
  id : Int
  lat : ℚ
  lon : ℚ
  nodes : Option (List Int)
deriving Repr, DecidableEq

/-- The coordinate dict `self._node_coordinates`, most recent binding first. -/
abbrev Coords := List (Int × ℚ × ℚ)

/-- Dict lookup `self._node_coordinates.get(n, None)`. -/
def lookupC : Coords → Int → Option (ℚ × ℚ)
  | [], _ => none
  | (k, v) :: rest, n => if k = n then some v else lookupC rest n

/-- Squared value of `distance(a, b) = sqrt((ax-bx)^2 + (ay-by)^2)`
(src/map_reader.py, `distance`). -/
def distSq (a b : ℚ × ℚ) : ℚ :=
  (a.1 - b.1) ^ 2 + (a.2 - b.2) ^ 2

/-- The comparison `distance(a, b) > step_size` expressed over the squared
distance: for `step ≥ 0` it is `d2 > step^2`; for `step < 0` it always holds
since `sqrt d2 ≥ 0 > step`. -/
def distGtStep (d2 step : ℚ) : Bool :=
  decide (step < 0) || decide (step ^ 2 < d2)

/-- `⌊sqrt n⌋` for a natural number, computed by counting the
`k ∈ {0, ..., n}` with `k^2 ≤ n` (there are exactly `⌊sqrt n⌋ + 1` of
them).  Defined this way rather than with `Nat.sqrt` so that it reduces in
the kernel. -/
def natFloorSqrt (n : ℕ) : ℕ :=
  ((List.range (n + 1)).filter (fun k => k * k ≤ n)).length - 1

/-- `⌊sqrt r⌋` for a nonnegative rational `r = p/q`, computed exactly:
`sqrt (p/q) = sqrt (p*q) / q` and `⌊sqrt (p*q) / q⌋ = ⌊⌊sqrt (p*q)⌋ / q⌋`. -/
def ratFloorSqrt (r : ℚ) : ℕ :=
  natFloorSqrt (r.num.toNat * r.den) / r.den

/-- Exact value of the Python float floor division `dist // step` for
`dist = sqrt d2` and `step ≠ 0`.  For `step > 0` this is
`⌊sqrt (d2/step^2)⌋`; for `step < 0` it is `-⌈sqrt (d2/step^2)⌉`. -/
def floorDistDiv (d2 step : ℚ) : Int :=
  let r := d2 / step ^ 2
  let f := ratFloorSqrt r
  if 0 < step then (f : Int)
  else if ((f : ℚ)) ^ 2 = r then -(f : Int) else -(f : Int) - 1

/-- `n_divisions = int((dist // self.step_size) + 1)` (line 134).  The float
`dist // step + 1` is integer-valued, so `int(...)` is exact. -/
def nDivisions (d2 step : ℚ) : Int :=
  floorDistDiv d2 step + 1

/-- `np.linspace(a, b, n)`: `n` evenly spaced samples from `a` to `b`,
endpoints included (`n = 1` gives `[a]`, `n = 0` gives `[]`). -/
def linspace (a b : ℚ) (n : ℕ) : List ℚ :=
  if n = 0 then []
  else if n = 1 then [a]
  else (List.range n).map (fun i => a + (b - a) * (i : ℚ) / ((n : ℚ) - 1))

/-- Number of decimal digits of `n`, i.e. `len(str(n))` for `n : ℕ`. -/
def decimalLen (n : ℕ) : ℕ :=
  (Nat.toDigits 10 n).length

/-- Width of `f"{sub:03}"`: three digits, more when `sub ≥ 1000`. -/
def padWidth (sub : ℕ) : ℕ :=
  max 3 (decimalLen sub)

/-- `int(str(curr_node) + f"{sub_id:03}")` (lines 142-143): the zero-padded
sub-index appended to the decimal representation of the originating id. -/
def synthId (c : Int) (sub : ℕ) : Int :=
  if 0 ≤ c then c * (10 : Int) ^ padWidth sub + (sub : Int)
  else c * (10 : Int) ^ padWidth sub - (sub : Int)

/-- Coordinate resolution for one node id (lines 120-129): dict `get` first,
network fallback second.  A coordinate pair is always truthy in Python, so
`if not coord` is exactly the `None` test.  The fallback result is *not*
written back into the dict. -/
def resolve (fetch : Int → ℚ × ℚ) (coords : Coords) (n : Int) : ℚ × ℚ :=
  (lookupC coords n).getD (fetch n)

/-- The `(id, (lat, lon))` pairs produced for one oversized segment:
`zip(additional_node_ids, zip(additional_nodes_lat, additional_nodes_lon))`
for `m = n_divisions` samples from `a` to `b`. -/
def segSamples (curr : Int) (a b : ℚ × ℚ) (m : ℕ) : List (Int × ℚ × ℚ) :=
  ((List.range m).map (synthId curr)).zip ((linspace a.1 b.1 m).zip (linspace a.2 b.2 m))

/-- The synthetic node element built from one sample (lines 147-152). -/
def mkNode (s : Int × ℚ × ℚ) : Element :=
  ⟨"node", s.1, s.2.1, s.2.2, none⟩

/-- Processing of one consecutive pair `(curr, next)` of a way (lines
119-161): resolve both coordinates, and if `dist > step_size` create one
synthetic node per `linspace` sample (the source creates a node for *every*
sample, endpoints included).  Returns `(new node elements, updated
coordinate dict, ids appended to the way's node list)` in creation order. -/
def processSegment (fetch : Int → ℚ × ℚ) (step : ℚ) (coords : Coords)
    (curr next : Int) : Except Err (List Element × Coords × List Int) :=
  let currCoord := resolve fetch coords curr
  let nextCoord := resolve fetch coords next
  let d2 := distSq currCoord nextCoord
  if distGtStep d2 step then
    if step = 0 then .error .divByZero
    else if nDivisions d2 step < 0 then .error .valueError
    else
      let samples := segSamples curr currCoord nextCoord (nDivisions d2 step).toNat
      .ok (samples.map mkNode,
           samples.foldl (fun c s => (s.1, s.2) :: c) coords,
           samples.map (fun s => s.1))
  else .ok ([], coords, [])

/-- The loop `for idx, curr_node in enumerate(way_nodes)` (lines 113-161).
`curRest` is the suffix of `way_nodes` from the current index: each step
appends `curr` to the accumulator `acc` (the loop body's first statement),
stops interpolating at the last index (`idx == len(way_nodes) - 1:
continue`), and otherwise processes the segment `(curr, next)`. -/
def segLoop (fetch : Int → ℚ × ℚ) (step : ℚ) :
    List Int → List Int → List Element → Coords →
    Except Err (List Int × List Element × Coords)
  | [], acc, news, coords => .ok (acc, news, coords)
  | curr :: rest, acc, news, coords =>
    match rest with
    | [] => .ok (acc ++ [curr], news, coords)
    | next :: _ =>
      match processSegment fetch step coords curr next with
      | .error e => .error e
      | .ok (segNews, coords2, ids) =>
        segLoop fetch step rest (acc ++ [curr] ++ ids) (news ++ segNews) coords2

/-- Rewrite of one way's node list (lines 111-163): start from
`new_way_nodes = way_nodes.copy()`, run the enumeration loop, then
`new_way_nodes.append(way_nodes[-1])` — an `IndexError` if the way has no
nodes. -/
def processWay (fetch : Int → ℚ × ℚ) (step : ℚ) (coords : Coords)
    (wayNodes : List Int) : Except Err (List Int × List Element × Coords) :=
  match segLoop fetch step wayNodes wayNodes [] coords with
  | .error e => .error e
  | .ok (acc, news, c2) =>
    match wayNodes.getLast? with
    | none => .error .indexError
    | some last => .ok (acc ++ [last], news, c2)

/-- The rewrite loop (lines 166-168): every element whose `"id"` equals
`way_id` gets its `"nodes"` entry replaced. -/
def rewriteWay (wayId : Int) (nwn : List Int) (e : Element) : Element :=
  if e.id = wayId then { e with nodes := some nwn } else e

/-- Number of way elements in a list. -/
def countWays (l : List Element) : ℕ :=
  l.countP (fun e => e.etype == "way")

theorem rewriteWay_etype (wayId : Int) (nwn : List Int) (e : Element) :
    (rewriteWay wayId nwn e).etype = e.etype := by
  unfold rewriteWay; split <;> rfl

theorem rewriteWay_id (wayId : Int) (nwn : List Int) (e : Element) :
    (rewriteWay wayId nwn e).id = e.id := by
  unfold rewriteWay; split <;> rfl

theorem countWays_map_rewrite (wayId : Int) (nwn : List Int)
    (l : List Element) : countWays (l.map (rewriteWay wayId nwn)) = countWays l := by
  unfold countWays
  rw [List.countP_map]
  congr 1
  funext e
  simp [Function.comp, rewriteWay_etype]

theorem countWays_append (l₁ l₂ : List Element) :
    countWays (l₁ ++ l₂) = countWays l₁ + countWays l₂ :=
  List.countP_append _ _ _

/-- Every element created by `processSegment` is a node element. -/
theorem processSegment_news_node {fetch step coords curr next news c2 ids}
    (h : processSegment fetch step coords curr next = .ok (news, c2, ids)) :
    ∀ e ∈ news, e.etype = "node" := by
  simp only [processSegment] at h
  split at h
  · split at h
    · exact absurd h (by simp)
    · split at h
      · exact absurd h (by simp)
      · simp only [Except.ok.injEq, Prod.mk.injEq] at h
        obtain ⟨hn, -, -⟩ := h
        subst hn
        intro e he
        obtain ⟨s, -, rfl⟩ := List.mem_map.1 he
        rfl
  · simp only [Except.ok.injEq, Prod.mk.injEq] at h
    obtain ⟨hn, -, -⟩ := h
    subst hn
    intro e he
    exact absurd he (List.not_mem_nil e)

/-- Every element created by the enumeration loop is a node element. -/
theorem segLoop_news_node {fetch step} :
    ∀ {rest acc news coords nwn news' c'},
      segLoop fetch step rest acc news coords = .ok (nwn, news', c') →
      (∀ e ∈ news, e.etype = "node") → ∀ e ∈ news', e.etype = "node" := by
  intro rest
  induction rest with
  | nil =>
    intro acc news coords nwn news' c' h hn
    simp only [segLoop, Except.ok.injEq, Prod.mk.injEq] at h
    obtain ⟨-, rfl, -⟩ := h
    exact hn
  | cons curr rest ih =>
    intro acc news coords nwn news' c' h hn
    match rest, h with
    | [], h =>
      simp only [segLoop, Except.ok.injEq, Prod.mk.injEq] at h
      obtain ⟨-, rfl, -⟩ := h
      exact hn
    | next :: rest', h =>
      simp only [segLoop] at h
      split at h
      · exact absurd h (by simp)
      · rename_i segNews coords2 ids hseg
        refine ih h ?_
        intro e he
        rcases List.mem_append.1 he with h1 | h2
        · exact hn e h1
        · exact processSegment_news_node hseg e h2

/-- Every element created by `processWay` is a node element. -/
theorem processWay_news_node {fetch step coords wayNodes nwn news c'}
    (h : processWay fetch step coords wayNodes = .ok (nwn, news, c')) :
    ∀ e ∈ news, e.etype = "node" := by
  unfold processWay at h
  split at h
  · exact absurd h (by simp)
  · rename_i acc news0 c2 hseg
    split at h
    · exact absurd h (by simp)
    · simp only [Except.ok.injEq, Prod.mk.injEq] at h
      obtain ⟨-, rfl, -⟩ := h
      exact segLoop_news_node hseg (by intro e he; exact absurd he (List.not_mem_nil e))

theorem countWays_news_zero {fetch step coords wayNodes nwn news c'}
    (h : processWay fetch step coords wayNodes = .ok (nwn, news, c')) :
    countWays news = 0 := by
  unfold countWays
  rw [List.countP_eq_zero]
  intro e hmem
  simp [processWay_news_node h e hmem]

/-- The outer loop `for element in self._overpass_result["elements"]`
(lines 105-168).  Because `modified_overpass_result` is a shallow copy, the
appends of synthetic nodes go to the very list being iterated, so the loop
is an index walk over a single growing list: skip non-way elements, rewrite
ways.  After each way the rewrite loop (lines 166-168) replaces the
`"nodes"` entry of *every* element whose id equals the way's id.
Terminates because each step either consumes a way (only node elements are
ever appended) or advances past a non-way element. -/
def goElems (fetch : Int → ℚ × ℚ) (step : ℚ) (i : ℕ) (elems : List Element)
    (coords : Coords) : Except Err (List Element × Coords) :=
  if h : i < elems.length then
    if he : elems[i].etype = "way" then
      match elems[i].nodes with
      | none => .error .keyError
      | some wn =>
        match hp : processWay fetch step coords wn with
        | .error er => .error er
        | .ok (nwn, news, c2) =>
          goElems fetch step (i + 1) ((elems ++ news).map (rewriteWay elems[i].id nwn)) c2
    else
      goElems fetch step (i + 1) elems coords
  else
    .ok (elems, coords)
termination_by (countWays (elems.drop i), elems.length - i)
decreasing_by
  · simp only [invImage, InvImage, Prod.lex_iff]
    left
    have hmap : countWays (((elems ++ news).map (rewriteWay elems[i].id nwn)).drop (i + 1))
        = countWays ((elems ++ news).drop (i + 1)) := by
      rw [← List.map_drop, countWays_map_rewrite]
    have happ : (elems ++ news).drop (i + 1) = elems.drop (i + 1) ++ news :=
      List.drop_append_of_le_length h
    have hcount : countWays (elems.drop i) = countWays (elems.drop (i + 1)) + 1 := by
      rw [List.drop_eq_getElem_cons h, countWays, List.countP_cons]
      have hb : (elems[i].etype == "way") = true := by simp [he]
      rw [hb]
      rfl
    have hnews : countWays news = 0 := countWays_news_zero hp
    rw [hmap, happ, countWays_append, hnews, hcount]
    omega
  · simp only [invImage, InvImage, Prod.lex_iff]
    have hcount : countWays (elems.drop i) = countWays (elems.drop (i + 1)) := by
      rw [List.drop_eq_getElem_cons h, countWays, List.countP_cons]
      have hb : (elems[i].etype == "way") = false := by simp [he]
      rw [hb]
      simp [countWays]
    right
    exact ⟨hcount.symm, Nat.sub_succ_lt_self _ _ h⟩

/-- Unfolding lemma: loop exit. -/
theorem goElems_stop {fetch step i elems coords} (h : ¬ i < elems.length) :
    goElems fetch step i elems coords = .ok (elems, coords) := by
  rw [goElems]
  simp [h]

/-- Unfolding lemma: skipping a non-way element. -/
theorem goElems_skip {fetch step i elems coords} (h : i < elems.length)
    (he : ¬ elems[i].etype = "way") :
    goElems fetch step i elems coords = goElems fetch step (i + 1) elems coords := by
  rw [goElems]
  rw [dif_pos h, dif_neg he]

/-- Unfolding lemma: a way element without a `"nodes"` key. -/
theorem goElems_keyErr {fetch step i elems coords} (h : i < elems.length)
    (he : elems[i].etype = "way") (hn : elems[i].nodes = none) :
    goElems fetch step i elems coords = .error .keyError := by
  rw [goElems]
  rw [dif_pos h, dif_pos he]
  split
  · rfl
  · rename_i wn hsome
    rw [hn] at hsome
    cases hsome

/-- Unfolding lemma: a way whose processing raises. -/
theorem goElems_procErr {fetch step i elems coords wn er} (h : i < elems.length)
    (he : elems[i].etype = "way") (hn : elems[i].nodes = some wn)
    (hp : processWay fetch step coords wn = .error er) :
    goElems fetch step i elems coords = .error er := by
  rw [goElems]
  rw [dif_pos h, dif_pos he]
  split
  · rename_i hnone
    rw [hn] at hnone
    cases hnone
  · rename_i wn2 hsome
    rw [hn] at hsome
    injection hsome with hsome
    subst hsome
    split
    · rename_i er2 hp2
      rw [hp] at hp2
      injection hp2 with hp2
      rw [hp2]
    · rename_i nwn news c2 hp2
      rw [hp] at hp2
      cases hp2

/-- Unfolding lemma: a way whose processing succeeds. -/
theorem goElems_way {fetch step i elems coords wn nwn news c2} (h : i < elems.length)
    (he : elems[i].etype = "way") (hn : elems[i].nodes = some wn)
    (hp : processWay fetch step coords wn = .ok (nwn, news, c2)) :
    goElems fetch step i elems coords =
      goElems fetch step (i + 1) ((elems ++ news).map (rewriteWay elems[i].id nwn)) c2 := by
  rw [goElems]
  rw [dif_pos h, dif_pos he]
  split
  · rename_i hnone
    rw [hn] at hnone
    cases hnone
  · rename_i wn2 hsome
    rw [hn] at hsome
    injection hsome with hsome
    subst hsome
    split
    · rename_i er2 hp2
      rw [hp] at hp2
      cases hp2
    · rename_i nwn2 news2 c22 hp2
      rw [hp] at hp2
      injection hp2 with hp2
      injection hp2 with h1 h2
      injection h2 with h2 h3
      subst h1
      subst h2
      subst h3
      rfl

/-- `interpolate_nodes` state: the parsed Overpass result's `"elements"`
list and the `_node_coordinates` dict. -/
structure MapState where
  elements : List Element
  nodeCoordinates : Coords
deriving Repr, DecidableEq

/-- `MapReader.interpolate_nodes` (lines 95-170), with the network modelled
by `fetch` and the configured `self._step_size` passed as `step`.
Raising a Python exception is modelled as `Except.error`; on success the
final assignment `self._overpass_result = modified_overpass_result` yields
the new state. -/
def interpolate_nodes (fetch : Int → ℚ × ℚ) (step : ℚ) (st : MapState) :
    Except Err MapState :=
  match goElems fetch step 0 st.elements st.nodeCoordinates with
  | .error e => .error e
  | .ok (elems, coords) => .ok ⟨elems, coords⟩

/-- Fuel-indexed version of `goElems`, used only to evaluate concrete runs
by kernel reduction (`goElems` itself is defined by well-founded recursion). -/
def goFuel (fetch : Int → ℚ × ℚ) (step : ℚ) :
    ℕ → ℕ → List Element → Coords → Option (Except Err (List Element × Coords))
  | 0, _, _, _ => none
  | fuel + 1, i, elems, coords =>
    if h : i < elems.length then
      if elems[i].etype = "way" then
        match elems[i].nodes with
        | none => some (.error .keyError)
        | some wn =>
          match processWay fetch step coords wn with
          | .error er => some (.error er)
          | .ok (nwn, news, c2) =>
            goFuel fetch step fuel (i + 1) ((elems ++ news).map (rewriteWay elems[i].id nwn)) c2
      else
        goFuel fetch step fuel (i + 1) elems coords
    else
      some (.ok (elems, coords))

theorem goFuel_sound {fetch step} :
    ∀ {fuel : ℕ} {i elems coords r},
      goFuel fetch step fuel i elems coords = some r →
      goElems fetch step i elems coords = r := by
  intro fuel
  induction fuel with
  | zero => intro i elems coords r h; exact absurd h (by simp [goFuel])
  | succ fuel ih =>
    intro i elems coords r h
    simp only [goFuel] at h
    split at h
    · rename_i hlt
      split at h
      · rename_i hway
        split at h
        · rename_i hnone
          simp only [Option.some.injEq] at h
          subst h
          exact goElems_keyErr hlt hway hnone
        · rename_i wn hsome
          split at h
          · rename_i er hp
            simp only [Option.some.injEq] at h
            subst h
            exact goElems_procErr hlt hway hsome hp
          · rename_i nwn news c2 hp
            rw [goElems_way hlt hway hsome hp]
            exact ih h
      · rename_i hway
        rw [goElems_skip hlt hway]
        exact ih h
    · rename_i hge
      simp only [Option.some.injEq] at h
      subst h
      exact goElems_stop hge

/-- Evaluation helper: a successful fuelled run determines `interpolate_nodes`. -/
theorem interpolate_eval (fuel : ℕ) {fetch step st elems coords}
    (h : goFuel fetch step fuel 0 st.elements st.nodeCoordinates = some (.ok (elems, coords))) :
    interpolate_nodes fetch step st = .ok ⟨elems, coords⟩ := by
  unfold interpolate_nodes
  rw [goFuel_sound h]

/-- Evaluation helper: a fuelled run that raises determines `interpolate_nodes`. -/
theorem interpolate_eval_err (fuel : ℕ) {fetch step st er}
    (h : goFuel fetch step fuel 0 st.elements st.nodeCoordinates = some (.error er)) :
    interpolate_nodes fetch step st = .error er := by
  unfold interpolate_nodes
  rw [goFuel_sound h]

/-- The enumeration loop only ever appends to the node-list accumulator. -/
theorem segLoop_acc_prefix {fetch step} :
    ∀ {rest acc news coords nwn news' c'},
      segLoop fetch step rest acc news coords = .ok (nwn, news', c') →
      ∃ suffix, nwn = acc ++ suffix := by
  intro rest
  induction rest with
  | nil =>
    intro acc news coords nwn news' c' h
    simp only [segLoop, Except.ok.injEq, Prod.mk.injEq] at h
    exact ⟨[], by simp [h.1.symm]⟩
  | cons curr rest ih =>
    intro acc news coords nwn news' c' h
    match rest, h with
    | [], h =>
      simp only [segLoop, Except.ok.injEq, Prod.mk.injEq] at h
      exact ⟨[curr], h.1.symm⟩
    | next :: rest', h =>
      simp only [segLoop] at h
      split at h
      · exact absurd h (by simp)
      · rename_i segNews coords2 ids hseg
        obtain ⟨suffix, hs⟩ := ih h
        exact ⟨[curr] ++ ids ++ suffix, by simp [hs]⟩

/-- The enumeration loop only ever appends to the created-elements
accumulator. -/
theorem segLoop_news_prefix {fetch step} :
    ∀ {rest acc news coords nwn news' c'},
      segLoop fetch step rest acc news coords = .ok (nwn, news', c') →
      ∃ delta, news' = news ++ delta := by
  intro rest
  induction rest with
  | nil =>
    intro acc news coords nwn news' c' h
    simp only [segLoop, Except.ok.injEq, Prod.mk.injEq] at h
    exact ⟨[], by simp [h.2.1.symm]⟩
  | cons curr rest ih =>
    intro acc news coords nwn news' c' h
    match rest, h with
    | [], h =>
      simp only [segLoop, Except.ok.injEq, Prod.mk.injEq] at h
      exact ⟨[], by simp [h.2.1.symm]⟩
    | next :: rest', h =>
      simp only [segLoop] at h
      split at h
      · exact absurd h (by simp)
      · rename_i segNews coords2 ids hseg
        obtain ⟨delta, hd⟩ := ih h
        exact ⟨segNews ++ delta, by simp [hd]⟩

/-- Endpoint behaviour of the per-way rewrite: the output node list starts
with the input's first node (because `new_way_nodes` starts as a full copy
of `way_nodes`) and ends with the input's last node (appended at line 163). -/
theorem processWay_endpoints {fetch step coords wn nwn news c'}
    (h : processWay fetch step coords wn = .ok (nwn, news, c')) :
    wn ≠ [] ∧ nwn.head? = wn.head? ∧ nwn.getLast? = wn.getLast? := by
  unfold processWay at h
  split at h
  · exact absurd h (by simp)
  · rename_i acc news0 c2 hseg
    split at h
    · exact absurd h (by simp)
    · rename_i last hlast
      simp only [Except.ok.injEq, Prod.mk.injEq] at h
      obtain ⟨hn, -, -⟩ := h
      obtain ⟨suffix, rfl⟩ := segLoop_acc_prefix hseg
      have hne : wn ≠ [] := by
        intro h0
        rw [h0] at hlast
        cases hlast
      subst hn
      refine ⟨hne, ?_, ?_⟩
      · rw [List.append_assoc, List.head?_append]
        cases wn with
        | nil => exact absurd rfl hne
        | cons a l => rfl
      · rw [List.getLast?_concat, hlast]

theorem rewriteWay_lat (wayId : Int) (nwn : List Int) (e : Element) :
    (rewriteWay wayId nwn e).lat = e.lat := by
  unfold rewriteWay; split <;> rfl

theorem rewriteWay_lon (wayId : Int) (nwn : List Int) (e : Element) :
    (rewriteWay wayId nwn e).lon = e.lon := by
  unfold rewriteWay; split <;> rfl

theorem rewriteWay_of_ne {wayId : Int} {nwn : List Int} {e : Element}
    (h : e.id ≠ wayId) : rewriteWay wayId nwn e = e :=
  if_neg h

theorem rewriteWay_of_eq {wayId : Int} {nwn : List Int} {e : Element}
    (h : e.id = wayId) : rewriteWay wayId nwn e = { e with nodes := some nwn } :=
  if_pos h

/-- Default element for total list indexing in specifications. -/
def dElem : Element := ⟨"", 0, 0, 0, none⟩

theorem getD_append_left {l₁ l₂ : List Element} {j : ℕ} (h : j < l₁.length) :
    (l₁ ++ l₂).getD j dElem = l₁.getD j dElem := by
  rw [List.getD_eq_getElem _ _ (by simp; omega), List.getD_eq_getElem _ _ h,
    List.getElem_append_left h]

theorem getD_append_right {l₁ l₂ : List Element} {j : ℕ} (h₁ : l₁.length ≤ j)
    (h₂ : j < l₁.length + l₂.length) :
    (l₁ ++ l₂).getD j dElem = l₂.getD (j - l₁.length) dElem := by
  rw [List.getD_eq_getElem _ _ (by simp; omega), List.getD_eq_getElem _ _ (by omega),
    List.getElem_append_right h₁]

theorem getD_map_rw {w : Int} {nwn : List Int} {l : List Element} {j : ℕ}
    (h : j < l.length) :
    (l.map (rewriteWay w nwn)).getD j dElem = rewriteWay w nwn (l.getD j dElem) := by
  rw [List.getD_eq_getElem _ _ (by simpa using h), List.getD_eq_getElem _ _ h,
    List.getElem_map]

theorem getD_mem {l : List Element} {j : ℕ} (h : j < l.length) :
    l.getD j dElem ∈ l := by
  rw [List.getD_eq_getElem _ _ h]
  exact List.getElem_mem _

/-- Element ids are unique across way elements: no other element (way or
not) shares an id with a way.  This reflects the OSM well-formedness
assumption (element identity is its integer ID, unique within a result
set); without it the id-keyed rewrite loop of the source can cross-write
unrelated elements. -/
def DistinctWayIds (l : List Element) : Prop :=
  ∀ a, a < l.length → ∀ b, b < l.length → a ≠ b →
    (l.getD a dElem).etype = "way" → (l.getD b dElem).id ≠ (l.getD a dElem).id

/-- Invariant of the outer loop relative to the original element list
`orig`, at current index `i`: the list only grew; non-way elements are
untouched; way elements not yet reached are untouched; way elements already
passed carry a rewritten node list preserving the head and last entry of
their original node list; every appended element is a node element. -/
def StrongInv (orig : List Element) (i : ℕ) (elems : List Element) : Prop :=
  orig.length ≤ elems.length ∧
  (∀ j, j < orig.length →
    ((orig.getD j dElem).etype ≠ "way" → elems.getD j dElem = orig.getD j dElem) ∧
    ((orig.getD j dElem).etype = "way" → i ≤ j → elems.getD j dElem = orig.getD j dElem) ∧
    ((orig.getD j dElem).etype = "way" → j < i →
      ∃ wn nwn, (orig.getD j dElem).nodes = some wn ∧
        elems.getD j dElem = { orig.getD j dElem with nodes := some nwn } ∧
        nwn.head? = wn.head? ∧ nwn.getLast? = wn.getLast?)) ∧
  (∀ j, j < elems.length → orig.length ≤ j →
    (elems.getD j dElem).etype = "node")

theorem goElems_strong {fetch step} (orig : List Element)
    (hids : DistinctWayIds orig) :
    ∀ (i : ℕ) (elems : List Element) (coords : Coords),
      ∀ {elems' : List Element} {coords' : Coords},
      goElems fetch step i elems coords = .ok (elems', coords') →
      StrongInv orig i elems → StrongInv orig elems'.length elems' := by
  intro i elems coords
  induction i, elems, coords using goElems.induct fetch step with
  | case1 i elems coords h hw hnone =>
    intro elems' coords' heq _
    rw [goElems_keyErr h hw hnone] at heq
    cases heq
  | case2 i elems coords h hw wn hsome er hp =>
    intro elems' coords' heq _
    rw [goElems_procErr h hw hsome hp] at heq
    cases heq
  | case3 i elems coords h hw wn hsome nwn news c2 hp ih =>
    intro elems' coords' heq hinv
    rw [goElems_way h hw hsome hp] at heq
    refine ih heq ?_
    obtain ⟨hlen, hmid, happ⟩ := hinv
    have hwD : (elems.getD i dElem).etype = "way" := by
      rw [List.getD_eq_getElem _ _ h]; exact hw
    have hsomeD : (elems.getD i dElem).nodes = some wn := by
      rw [List.getD_eq_getElem _ _ h]; exact hsome
    have hidD : (elems.getD i dElem).id = elems[i].id := by
      rw [List.getD_eq_getElem _ _ h]
    -- the current element is within the original range and is an original way
    have hio : i < orig.length := by
      by_contra hio
      have hnode := happ i h (by omega)
      rw [hwD] at hnode
      exact absurd hnode (by decide)
    have horigway : (orig.getD i dElem).etype = "way" := by
      by_contra hnw
      have heqel := (hmid i hio).1 hnw
      rw [heqel] at hwD
      exact hnw hwD
    have helemi : elems.getD i dElem = orig.getD i dElem :=
      (hmid i hio).2.1 horigway (le_refl i)
    constructor
    · simp only [List.length_map, List.length_append]
      omega
    constructor
    · intro j hj
      have hjel : j < elems.length := by omega
      have hget : (List.map (rewriteWay elems[i].id nwn) (elems ++ news)).getD j dElem
          = rewriteWay elems[i].id nwn (elems.getD j dElem) := by
        rw [getD_map_rw (by simp; omega), getD_append_left hjel]
      have hwid : elems[i].id = (orig.getD i dElem).id := by
        rw [← helemi, hidD]
      refine ⟨?_, ?_, ?_⟩
      · intro hnw
        have hne : j ≠ i := by
          intro hji
          subst hji
          exact hnw horigway
        have hidne : (orig.getD j dElem).id ≠ (orig.getD i dElem).id :=
          hids i hio j hj (fun hc => hne hc.symm) horigway
        have hj_eq : elems.getD j dElem = orig.getD j dElem := (hmid j hj).1 hnw
        rw [hget, hj_eq, hwid, rewriteWay_of_ne hidne]
      · intro hwj hij
        have hne : j ≠ i := by omega
        have hidne : (orig.getD j dElem).id ≠ (orig.getD i dElem).id :=
          hids i hio j hj (fun hc => hne hc.symm) horigway
        have hj_eq : elems.getD j dElem = orig.getD j dElem :=
          (hmid j hj).2.1 hwj (by omega)
        rw [hget, hj_eq, hwid, rewriteWay_of_ne hidne]
      · intro hwj hij
        rcases Nat.lt_or_ge j i with hji | hji
        · obtain ⟨wnj, nwnj, ho, he, hh, hl⟩ := (hmid j hj).2.2 hwj hji
          have hidne : (orig.getD j dElem).id ≠ (orig.getD i dElem).id :=
            hids i hio j hj (by omega) horigway
          refine ⟨wnj, nwnj, ho, ?_, hh, hl⟩
          rw [hget, he, hwid, rewriteWay_of_ne (by simpa using hidne)]
        · have hji : j = i := by omega
          subst hji
          obtain ⟨-, hh, hl⟩ := processWay_endpoints hp
          refine ⟨wn, nwn, ?_, ?_, hh, hl⟩
          · rw [← helemi]
            exact hsomeD
          · rw [hget, ← helemi, rewriteWay_of_eq hidD]
    · intro j hj2 hjo
      simp only [List.length_map, List.length_append] at hj2
      have hget : (List.map (rewriteWay elems[i].id nwn) (elems ++ news)).getD j dElem
          = rewriteWay elems[i].id nwn ((elems ++ news).getD j dElem) := by
        rw [getD_map_rw (by simp; omega)]
      rw [hget, rewriteWay_etype]
      rcases Nat.lt_or_ge j elems.length with hje | hje
      · rw [getD_append_left hje]
        exact happ j hje hjo
      · rw [getD_append_right hje (by omega)]
        exact processWay_news_node hp _ (getD_mem (by omega))
  | case4 i elems coords h hw ih =>
    intro elems' coords' heq hinv
    rw [goElems_skip h hw] at heq
    refine ih heq ?_
    obtain ⟨hlen, hmid, happ⟩ := hinv
    refine ⟨hlen, ?_, happ⟩
    intro j hj
    refine ⟨(hmid j hj).1, ?_, ?_⟩
    · intro hwj hij
      exact (hmid j hj).2.1 hwj (by omega)
    · intro hwj hij
      rcases Nat.lt_or_ge j i with hji | hji
      · exact (hmid j hj).2.2 hwj hji
      · have hji : j = i := by omega
        subst hji
        have hj_eq := (hmid j hj).2.1 hwj (le_refl j)
        have hwD : ¬ (elems.getD j dElem).etype = "way" := by
          rw [List.getD_eq_getElem _ _ h]; exact hw
        rw [hj_eq] at hwD
        exact absurd hwj hwD
  | case5 i elems coords h =>
    intro elems' coords' heq hinv
    rw [goElems_stop h] at heq
    injection heq with heq
    injection heq with h1 h2
    subst h1
    subst h2
    obtain ⟨hlen, hmid, happ⟩ := hinv
    refine ⟨hlen, ?_, happ⟩
    intro j hj
    refine ⟨(hmid j hj).1, ?_, ?_⟩
    · intro hwj hij
      omega
    · intro hwj hij
      exact (hmid j hj).2.2 hwj (by omega)

/-- No non-way element shares an id with a way element (weaker than
`DistinctWayIds`: duplicate ids among ways are allowed). -/
def WaysIdSeparated (l : List Element) : Prop :=
  ∀ a, a < l.length → ∀ b, b < l.length →
    (l.getD a dElem).etype ≠ "way" → (l.getD b dElem).etype = "way" →
    (l.getD a dElem).id ≠ (l.getD b dElem).id

/-- Frame invariant of the outer loop: the list only grew; non-way elements
of the original list are untouched; every original element keeps its kind,
id and coordinates (only `nodes` can change); every appended element is a
node element. -/
def WeakInv (orig elems : List Element) : Prop :=
  orig.length ≤ elems.length ∧
  (∀ j, j < orig.length →
    ((orig.getD j dElem).etype ≠ "way" → elems.getD j dElem = orig.getD j dElem) ∧
    ((elems.getD j dElem).etype = (orig.getD j dElem).etype ∧
     (elems.getD j dElem).id = (orig.getD j dElem).id ∧
     (elems.getD j dElem).lat = (orig.getD j dElem).lat ∧
     (elems.getD j dElem).lon = (orig.getD j dElem).lon)) ∧
  (∀ j, j < elems.length → orig.length ≤ j → (elems.getD j dElem).etype = "node")

theorem goElems_weak {fetch step} (orig : List Element)
    (hsep : WaysIdSeparated orig) :
    ∀ (i : ℕ) (elems : List Element) (coords : Coords),
      ∀ {elems' : List Element} {coords' : Coords},
      goElems fetch step i elems coords = .ok (elems', coords') →
      WeakInv orig elems → WeakInv orig elems' := by
  intro i elems coords
  induction i, elems, coords using goElems.induct fetch step with
  | case1 i elems coords h hw hnone =>
    intro elems' coords' heq _
    rw [goElems_keyErr h hw hnone] at heq
    cases heq
  | case2 i elems coords h hw wn hsome er hp =>
    intro elems' coords' heq _
    rw [goElems_procErr h hw hsome hp] at heq
    cases heq
  | case3 i elems coords h hw wn hsome nwn news c2 hp ih =>
    intro elems' coords' heq hinv
    rw [goElems_way h hw hsome hp] at heq
    refine ih heq ?_
    obtain ⟨hlen, hmid, happ⟩ := hinv
    have hwD : (elems.getD i dElem).etype = "way" := by
      rw [List.getD_eq_getElem _ _ h]; exact hw
    have hidD : (elems.getD i dElem).id = elems[i].id := by
      rw [List.getD_eq_getElem _ _ h]
    have hio : i < orig.length := by
      by_contra hio
      have hnode := happ i h (by omega)
      rw [hwD] at hnode
      exact absurd hnode (by decide)
    have horigway : (orig.getD i dElem).etype = "way" := by
      rw [← (hmid i hio).2.1]
      exact hwD
    have hwid : elems[i].id = (orig.getD i dElem).id := by
      rw [← hidD]
      exact (hmid i hio).2.2.1
    constructor
    · simp only [List.length_map, List.length_append]
      omega
    constructor
    · intro j hj
      have hjel : j < elems.length := by omega
      have hget : (List.map (rewriteWay elems[i].id nwn) (elems ++ news)).getD j dElem
          = rewriteWay elems[i].id nwn (elems.getD j dElem) := by
        rw [getD_map_rw (by simp; omega), getD_append_left hjel]
      constructor
      · intro hnw
        have hj_eq : elems.getD j dElem = orig.getD j dElem := (hmid j hj).1 hnw
        have hidne : (orig.getD j dElem).id ≠ (orig.getD i dElem).id :=
          hsep j hj i hio hnw horigway
        rw [hget, hj_eq, hwid, rewriteWay_of_ne hidne]
      · rw [hget, rewriteWay_etype, rewriteWay_id, rewriteWay_lat, rewriteWay_lon]
        exact (hmid j hj).2
    · intro j hj2 hjo
      simp only [List.length_map, List.length_append] at hj2
      have hget : (List.map (rewriteWay elems[i].id nwn) (elems ++ news)).getD j dElem
          = rewriteWay elems[i].id nwn ((elems ++ news).getD j dElem) := by
        rw [getD_map_rw (by simp; omega)]
      rw [hget, rewriteWay_etype]
      rcases Nat.lt_or_ge j elems.length with hje | hje
      · rw [getD_append_left hje]
        exact happ j hje hjo
      · rw [getD_append_right hje (by omega)]
        exact processWay_news_node hp _ (getD_mem (by omega))
  | case4 i elems coords h hw ih =>
    intro elems' coords' heq hinv
    rw [goElems_skip h hw] at heq
    exact ih heq hinv
  | case5 i elems coords h =>
    intro elems' coords' heq hinv
    rw [goElems_stop h] at heq
    injection heq with heq
    injection heq with h1 h2
    subst h1
    subst h2
    exact hinv

/-! ### Oracle independence (determinism when no fallback is needed) -/

theorem lookupC_cons_mono {c : Coords} {k : Int} {v : ℚ × ℚ} {x : Int}
    (h : (lookupC c x).isSome) : (lookupC ((k, v) :: c) x).isSome := by
  unfold lookupC
  split
  · rfl
  · exact h

theorem lookupC_foldl_mono :
    ∀ (samples : List (Int × ℚ × ℚ)) (c : Coords) (x : Int),
      (lookupC c x).isSome →
      (lookupC (samples.foldl (fun c s => (s.1, s.2) :: c) c) x).isSome := by
  intro samples
  induction samples with
  | nil => intro c x h; exact h
  | cons s rest ih =>
    intro c x h
    exact ih _ x (lookupC_cons_mono h)

theorem lookupC_foldl_key :
    ∀ (samples : List (Int × ℚ × ℚ)) (c : Coords) (x : Int),
      (∃ p, (x, p) ∈ samples) →
      (lookupC (samples.foldl (fun c s => (s.1, s.2) :: c) c) x).isSome := by
  intro samples
  induction samples with
  | nil =>
    intro c x h
    obtain ⟨p, hp⟩ := h
    exact absurd hp (List.not_mem_nil _)
  | cons s rest ih =>
    intro c x h
    obtain ⟨p, hp⟩ := h
    rcases List.mem_cons.1 hp with h1 | h2
    · subst h1
      refine lookupC_foldl_mono rest _ x ?_
      unfold lookupC
      rw [if_pos rfl]
      rfl
    · exact ih _ x ⟨p, h2⟩

/-- When both coordinates are already cached, processing a segment does not
depend on the network oracle. -/
theorem processSegment_cong {f g : Int → ℚ × ℚ} {step coords curr next}
    (hc : (lookupC coords curr).isSome) (hn : (lookupC coords next).isSome) :
    processSegment f step coords curr next = processSegment g step coords curr next := by
  obtain ⟨vc, hvc⟩ := Option.isSome_iff_exists.1 hc
  obtain ⟨vn, hvn⟩ := Option.isSome_iff_exists.1 hn
  unfold processSegment resolve
  rw [hvc, hvn]
  rfl

theorem processSegment_mono {fetch step coords curr next news c2 ids}
    (h : processSegment fetch step coords curr next = .ok (news, c2, ids)) :
    ∀ x, (lookupC coords x).isSome → (lookupC c2 x).isSome := by
  simp only [processSegment] at h
  split at h
  · split at h
    · exact absurd h (by simp)
    · split at h
      · exact absurd h (by simp)
      · simp only [Except.ok.injEq, Prod.mk.injEq] at h
        obtain ⟨-, hc, -⟩ := h
        subst hc
        intro x hx
        exact lookupC_foldl_mono _ _ x hx
  · simp only [Except.ok.injEq, Prod.mk.injEq] at h
    obtain ⟨-, hc, -⟩ := h
    subst hc
    intro x hx
    exact hx

theorem processSegment_ids {fetch step coords curr next news c2 ids}
    (h : processSegment fetch step coords curr next = .ok (news, c2, ids)) :
    ∀ x ∈ ids, (lookupC c2 x).isSome := by
  simp only [processSegment] at h
  split at h
  · split at h
    · exact absurd h (by simp)
    · split at h
      · exact absurd h (by simp)
      · simp only [Except.ok.injEq, Prod.mk.injEq] at h
        obtain ⟨-, hc, hi⟩ := h
        subst hc
        subst hi
        intro x hx
        obtain ⟨s, hs, hsx⟩ := List.mem_map.1 hx
        refine lookupC_foldl_key _ _ x ⟨s.2, ?_⟩
        have : (x, s.2) = s := by
          rw [← hsx]
        rw [this]
        exact hs
  · simp only [Except.ok.injEq, Prod.mk.injEq] at h
    obtain ⟨-, -, hi⟩ := h
    subst hi
    intro x hx
    exact absurd hx (List.not_mem_nil x)

theorem segLoop_cong {f g : Int → ℚ × ℚ} {step : ℚ} :
    ∀ (rest acc : List Int) (news : List Element) (coords : Coords),
      (∀ x ∈ rest, (lookupC coords x).isSome) →
      segLoop f step rest acc news coords = segLoop g step rest acc news coords := by
  intro rest
  induction rest with
  | nil => intro acc news coords _; rfl
  | cons curr rest ih =>
    intro acc news coords hcov
    match rest with
    | [] => rfl
    | next :: rest' =>
      have hc : (lookupC coords curr).isSome := hcov curr (by simp)
      have hn : (lookupC coords next).isSome := hcov next (by simp)
      simp only [segLoop]
      rw [processSegment_cong (g := g) hc hn]
      split
      · rfl
      · rename_i segNews coords2 ids hseg
        refine ih _ _ _ ?_
        intro x hx
        exact processSegment_mono hseg x (hcov x (List.mem_cons_of_mem _ hx))

theorem segLoop_inv_some {fetch step} :
    ∀ (rest acc : List Int) (news : List Element) (coords : Coords)
      {nwn news' c'},
      segLoop fetch step rest acc news coords = .ok (nwn, news', c') →
      (∀ x ∈ rest, (lookupC coords x).isSome) →
      (∀ x ∈ acc, (lookupC coords x).isSome) →
      (∀ x, (lookupC coords x).isSome → (lookupC c' x).isSome) ∧
      (∀ x ∈ nwn, (lookupC c' x).isSome) := by
  intro rest
  induction rest with
  | nil =>
    intro acc news coords nwn news' c' h _ hacc
    simp only [segLoop, Except.ok.injEq, Prod.mk.injEq] at h
    obtain ⟨hn, -, hc⟩ := h
    subst hn
    subst hc
    exact ⟨fun x hx => hx, hacc⟩
  | cons curr rest ih =>
    intro acc news coords nwn news' c' h hrest hacc
    match rest, h with
    | [], h =>
      simp only [segLoop, Except.ok.injEq, Prod.mk.injEq] at h
      obtain ⟨hn, -, hc⟩ := h
      subst hn
      subst hc
      refine ⟨fun x hx => hx, ?_⟩
      intro x hx
      rcases List.mem_append.1 hx with h1 | h2
      · exact hacc x h1
      · rw [List.mem_singleton.1 h2]
        exact hrest curr (by simp)
    | next :: rest', h =>
      simp only [segLoop] at h
      split at h
      · exact absurd h (by simp)
      · rename_i segNews coords2 ids hseg
        have hmono := processSegment_mono hseg
        have hids := processSegment_ids hseg
        obtain ⟨hm, hn⟩ := ih _ _ _ h
          (fun x hx => hmono x (hrest x (List.mem_cons_of_mem _ hx)))
          (by
            intro x hx
            rcases List.mem_append.1 hx with h1 | h2
            · rcases List.mem_append.1 h1 with h3 | h4
              · exact hmono x (hacc x h3)
              · rw [List.mem_singleton.1 h4]
                exact hmono curr (hrest curr (by simp))
            · exact hids x h2)
        exact ⟨fun x hx => hm x (hmono x hx), hn⟩

theorem processWay_cong {f g : Int → ℚ × ℚ} {step coords wn}
    (hcov : ∀ x ∈ wn, (lookupC coords x).isSome) :
    processWay f step coords wn = processWay g step coords wn := by
  unfold processWay
  rw [segLoop_cong (g := g) wn wn [] coords hcov]

theorem processWay_inv_some {fetch step coords wn nwn news c'}
    (h : processWay fetch step coords wn = .ok (nwn, news, c'))
    (hcov : ∀ x ∈ wn, (lookupC coords x).isSome) :
    (∀ x, (lookupC coords x).isSome → (lookupC c' x).isSome) ∧
    (∀ x ∈ nwn, (lookupC c' x).isSome) := by
  unfold processWay at h
  split at h
  · exact absurd h (by simp)
  · rename_i acc news0 c2 hseg
    split at h
    · exact absurd h (by simp)
    · rename_i last hlast
      simp only [Except.ok.injEq, Prod.mk.injEq] at h
      obtain ⟨hn, -, hc⟩ := h
      subst hn
      subst hc
      obtain ⟨hm, hacc⟩ := segLoop_inv_some wn wn [] coords hseg hcov hcov
      refine ⟨hm, ?_⟩
      intro x hx
      rcases List.mem_append.1 hx with h1 | h2
      · exact hacc x h1
      · rw [List.mem_singleton.1 h2]
        exact hm last (hcov last (List.mem_of_mem_getLast? hlast))

/-- All node ids referenced by way elements are resolvable from the cache
(stated over `e.nodes.getD []` so that it is decidable on concrete states). -/
def CoordsCover (elems : List Element) (coords : Coords) : Prop :=
  ∀ e ∈ elems, e.etype = "way" →
    ∀ x ∈ e.nodes.getD [], (lookupC coords x).isSome

/-- The outer loop does not depend on the network oracle as long as every
way's node ids are resolvable from the coordinate cache. -/
theorem goElems_cong {f g : Int → ℚ × ℚ} {step : ℚ} :
    ∀ (i : ℕ) (elems : List Element) (coords : Coords),
      CoordsCover elems coords →
      goElems f step i elems coords = goElems g step i elems coords := by
  intro i elems coords
  induction i, elems, coords using goElems.induct f step with
  | case1 i elems coords h hw hnone =>
    intro _
    rw [goElems_keyErr h hw hnone, goElems_keyErr h hw hnone]
  | case2 i elems coords h hw wn hsome er hp =>
    intro hcov
    have hwcov : ∀ x ∈ wn, (lookupC coords x).isSome := by
      have := hcov elems[i] (List.getElem_mem _) hw
      rw [hsome] at this
      exact this
    have hpg : processWay g step coords wn = .error er := by
      rw [← processWay_cong hwcov]
      exact hp
    rw [goElems_procErr h hw hsome hp, goElems_procErr h hw hsome hpg]
  | case3 i elems coords h hw wn hsome nwn news c2 hp ih =>
    intro hcov
    have hwcov : ∀ x ∈ wn, (lookupC coords x).isSome := by
      have := hcov elems[i] (List.getElem_mem _) hw
      rw [hsome] at this
      exact this
    have hpg : processWay g step coords wn = .ok (nwn, news, c2) := by
      rw [← processWay_cong hwcov]
      exact hp
    rw [goElems_way h hw hsome hp, goElems_way h hw hsome hpg]
    refine ih ?_
    obtain ⟨hmono, hnwn⟩ := processWay_inv_some hp hwcov
    intro e2 he2 hwe2 x hx
    obtain ⟨e0, he0, rfl⟩ := List.mem_map.1 he2
    rcases List.mem_append.1 he0 with h0 | h0
    · by_cases hid : e0.id = elems[i].id
      · rw [rewriteWay_of_eq hid] at hx
        have hx2 : x ∈ nwn := by simpa using hx
        exact hnwn x hx2
      · rw [rewriteWay_of_ne hid] at hwe2 hx
        exact hmono x (hcov e0 h0 hwe2 x hx)
    · have hnode := processWay_news_node hp e0 h0
      rw [rewriteWay_etype] at hwe2
      rw [hnode] at hwe2
      exact absurd hwe2 (by decide)
  | case4 i elems coords h hw ih =>
    intro hcov
    rw [goElems_skip h hw, goElems_skip h hw]
    exact ih hcov
  | case5 i elems coords h =>
    intro _
    rw [goElems_stop h, goElems_stop h]

/-! ### Frame over the coordinate dict: only synthetic node ids are added -/

theorem lookupC_cons_ne {c : Coords} {k : Int} {v : ℚ × ℚ} {x : Int}
    (h : k ≠ x) : lookupC ((k, v) :: c) x = lookupC c x := by
  simp only [lookupC]
  rw [if_neg h]

theorem segLoop_cons_cons {fetch step curr next rest' acc news coords} :
    segLoop fetch step (curr :: next :: rest') acc news coords =
      match processSegment fetch step coords curr next with
      | .error e => .error e
      | .ok (segNews, coords2, ids) =>
        segLoop fetch step (next :: rest') (acc ++ [curr] ++ ids)
          (news ++ segNews) coords2 := rfl

theorem lookupC_foldl_frame :
    ∀ (samples : List (Int × ℚ × ℚ)) (c : Coords) (x : Int),
      (∀ s ∈ samples, s.1 ≠ x) →
      lookupC (samples.foldl (fun c s => (s.1, s.2) :: c) c) x = lookupC c x := by
  intro samples
  induction samples with
  | nil => intro c x _; rfl
  | cons s rest ih =>
    intro c x hne
    have h1 : s.1 ≠ x := hne s (by simp)
    calc lookupC (rest.foldl (fun c s => (s.1, s.2) :: c) ((s.1, s.2) :: c)) x
        = lookupC ((s.1, s.2) :: c) x := ih _ x (fun t ht => hne t (List.mem_cons_of_mem _ ht))
      _ = lookupC c x := lookupC_cons_ne h1

theorem processSegment_frame {fetch step coords curr next news c2 ids}
    (h : processSegment fetch step coords curr next = .ok (news, c2, ids)) :
    ∀ x, (∀ e ∈ news, e.id ≠ x) → lookupC c2 x = lookupC coords x := by
  simp only [processSegment] at h
  split at h
  · split at h
    · exact absurd h (by simp)
    · split at h
      · exact absurd h (by simp)
      · simp only [Except.ok.injEq, Prod.mk.injEq] at h
        obtain ⟨hn, hc, -⟩ := h
        subst hn
        subst hc
        intro x hx
        refine lookupC_foldl_frame _ _ x ?_
        intro s hs
        exact hx (mkNode s) (List.mem_map_of_mem _ hs)
  · simp only [Except.ok.injEq, Prod.mk.injEq] at h
    obtain ⟨-, hc, -⟩ := h
    subst hc
    intro x _
    rfl

theorem segLoop_frame {fetch step} :
    ∀ (rest acc : List Int) (news : List Element) (coords : Coords)
      {nwn news' c'},
      segLoop fetch step rest acc news coords = .ok (nwn, news', c') →
      ∀ x, (∀ e ∈ news', e.id ≠ x) → lookupC c' x = lookupC coords x := by
  intro rest
  induction rest with
  | nil =>
    intro acc news coords nwn news' c' h x _
    simp only [segLoop, Except.ok.injEq, Prod.mk.injEq] at h
    rw [h.2.2]
  | cons curr rest ih =>
    intro acc news coords nwn news' c' h x hx
    match rest, h with
    | [], h =>
      simp only [segLoop, Except.ok.injEq, Prod.mk.injEq] at h
      rw [h.2.2]
    | next :: rest', h =>
      rw [segLoop_cons_cons] at h
      split at h
      · exact absurd h (by simp)
      · rename_i segNews coords2 ids hseg
        obtain ⟨delta, hdelta⟩ := segLoop_news_prefix h
        have hmem : ∀ e ∈ segNews, e ∈ news' := by
          intro e he
          rw [hdelta]
          exact List.mem_append_left _ (List.mem_append_right _ he)
        calc lookupC c' x
            = lookupC coords2 x := ih _ _ _ h x hx
          _ = lookupC coords x :=
              processSegment_frame hseg x (fun e he => hx e (hmem e he))

theorem processWay_frame {fetch step coords wn nwn news c'}
    (h : processWay fetch step coords wn = .ok (nwn, news, c')) :
    ∀ x, (∀ e ∈ news, e.id ≠ x) → lookupC c' x = lookupC coords x := by
  unfold processWay at h
  split at h
  · exact absurd h (by simp)
  · rename_i acc news0 c2 hseg
    split at h
    · exact absurd h (by simp)
    · rename_i last hlast
      simp only [Except.ok.injEq, Prod.mk.injEq] at h
      obtain ⟨-, hnews, hc⟩ := h
      subst hnews
      subst hc
      exact segLoop_frame wn wn [] coords hseg

/-- Ids of elements present in the evolving list survive to the end of the
run (elements are never removed, and rewriting preserves ids). -/
theorem goElems_ids_mono {fetch step} :
    ∀ (i : ℕ) (elems : List Element) (coords : Coords)
      {elems' : List Element} {coords' : Coords},
      goElems fetch step i elems coords = .ok (elems', coords') →
      ∀ y ∈ elems, ∃ e ∈ elems', e.id = y.id := by
  intro i elems coords
  induction i, elems, coords using goElems.induct fetch step with
  | case1 i elems coords h hw hnone =>
    intro elems' coords' heq
    rw [goElems_keyErr h hw hnone] at heq
    cases heq
  | case2 i elems coords h hw wn hsome er hp =>
    intro elems' coords' heq
    rw [goElems_procErr h hw hsome hp] at heq
    cases heq
  | case3 i elems coords h hw wn hsome nwn news c2 hp ih =>
    intro elems' coords' heq y hy
    rw [goElems_way h hw hsome hp] at heq
    have hy2 : rewriteWay elems[i].id nwn y
        ∈ List.map (rewriteWay elems[i].id nwn) (elems ++ news) :=
      List.mem_map_of_mem _ (List.mem_append_left _ hy)
    obtain ⟨e, he, hid⟩ := ih heq _ hy2
    exact ⟨e, he, by rw [hid, rewriteWay_id]⟩
  | case4 i elems coords h hw ih =>
    intro elems' coords' heq y hy
    rw [goElems_skip h hw] at heq
    exact ih heq y hy
  | case5 i elems coords h =>
    intro elems' coords' heq y hy
    rw [goElems_stop h] at heq
    injection heq with heq
    injection heq with h1 h2
    subst h1
    exact ⟨y, hy, rfl⟩

/-- The coordinate dict entry of any id that is not an element id of the
final result set is untouched by the whole run. -/
theorem goElems_coords_frame {fetch step} :
    ∀ (i : ℕ) (elems : List Element) (coords : Coords)
      {elems' : List Element} {coords' : Coords},
      goElems fetch step i elems coords = .ok (elems', coords') →
      ∀ x, (∀ e ∈ elems', e.id ≠ x) → lookupC coords' x = lookupC coords x := by
  intro i elems coords
  induction i, elems, coords using goElems.induct fetch step with
  | case1 i elems coords h hw hnone =>
    intro elems' coords' heq
    rw [goElems_keyErr h hw hnone] at heq
    cases heq
  | case2 i elems coords h hw wn hsome er hp =>
    intro elems' coords' heq
    rw [goElems_procErr h hw hsome hp] at heq
    cases heq
  | case3 i elems coords h hw wn hsome nwn news c2 hp ih =>
    intro elems' coords' heq x hx
    rw [goElems_way h hw hsome hp] at heq
    have hnews : ∀ e ∈ news, e.id ≠ x := by
      intro e he
      have hmem : rewriteWay elems[i].id nwn e
          ∈ List.map (rewriteWay elems[i].id nwn) (elems ++ news) :=
        List.mem_map_of_mem _ (List.mem_append_right _ he)
      obtain ⟨e2, he2, hid⟩ := goElems_ids_mono _ _ _ heq _ hmem
      rw [rewriteWay_id] at hid
      rw [← hid]
      exact hx e2 he2
    calc lookupC coords' x
        = lookupC c2 x := ih heq x hx
      _ = lookupC coords x := processWay_frame hp x hnews
  | case4 i elems coords h hw ih =>
    intro elems' coords' heq x hx
    rw [goElems_skip h hw] at heq
    exact ih heq x hx
  | case5 i elems coords h =>
    intro elems' coords' heq x hx
    rw [goElems_stop h] at heq
    injection heq with heq
    injection heq with h1 h2
    subst h2
    rfl

/-! ### Synthetic id derivation -/

theorem processSegment_synth {fetch step coords curr next news c2 ids}
    (h : processSegment fetch step coords curr next = .ok (news, c2, ids)) :
    ∀ e ∈ news, ∃ s, e.id = synthId curr s := by
  simp only [processSegment] at h
  split at h
  · split at h
    · exact absurd h (by simp)
    · split at h
      · exact absurd h (by simp)
      · simp only [Except.ok.injEq, Prod.mk.injEq] at h
        obtain ⟨hn, -, -⟩ := h
        subst hn
        intro e he
        obtain ⟨smp, hs, rfl⟩ := List.mem_map.1 he
        unfold segSamples at hs
        obtain ⟨a, b⟩ := smp
        have hfst := (List.of_mem_zip hs).1
        obtain ⟨s, -, hsid⟩ := List.mem_map.1 hfst
        exact ⟨s, hsid.symm⟩
  · simp only [Except.ok.injEq, Prod.mk.injEq] at h
    obtain ⟨hn, -, -⟩ := h
    subst hn
    intro e he
    exact absurd he (List.not_mem_nil e)

theorem segLoop_synth {fetch step} :
    ∀ (rest acc : List Int) (news : List Element) (coords : Coords)
      {nwn news' c'},
      segLoop fetch step rest acc news coords = .ok (nwn, news', c') →
      ∀ e ∈ news', e ∈ news ∨ ∃ c s, c ∈ rest ∧ e.id = synthId c s := by
  intro rest
  induction rest with
  | nil =>
    intro acc news coords nwn news' c' h e he
    simp only [segLoop, Except.ok.injEq, Prod.mk.injEq] at h
    rw [← h.2.1] at he
    exact Or.inl he
  | cons curr rest ih =>
    intro acc news coords nwn news' c' h e he
    match rest, h with
    | [], h =>
      simp only [segLoop, Except.ok.injEq, Prod.mk.injEq] at h
      rw [← h.2.1] at he
      exact Or.inl he
    | next :: rest', h =>
      simp only [segLoop] at h
      split at h
      · exact absurd h (by simp)
      · rename_i segNews coords2 ids hseg
        rcases ih _ _ _ h e he with h1 | h2
        · rcases List.mem_append.1 h1 with h3 | h4
          · exact Or.inl h3
          · exact Or.inr ⟨curr, (processSegment_synth hseg e h4).choose,
              by simp, (processSegment_synth hseg e h4).choose_spec⟩
        · obtain ⟨c, s, hc, hs⟩ := h2
          exact Or.inr ⟨c, s, List.mem_cons_of_mem _ hc, hs⟩

/-- Every synthetic node created while processing a way is a node element
whose id is `synthId c s` for some node id `c` of that way and sub-index
`s`: the id encoding of lines 142-143. -/
theorem processWay_synth {fetch step coords wayNodes nwn news c'}
    (h : processWay fetch step coords wayNodes = .ok (nwn, news, c')) :
    ∀ e ∈ news, e.etype = "node" ∧ ∃ c s, c ∈ wayNodes ∧ e.id = synthId c s := by
  intro e he
  refine ⟨processWay_news_node h e he, ?_⟩
  unfold processWay at h
  split at h
  · exact absurd h (by simp)
  · rename_i acc news0 c2 hseg
    split at h
    · exact absurd h (by simp)
    · simp only [Except.ok.injEq, Prod.mk.injEq] at h
      obtain ⟨-, hnews, -⟩ := h
      subst hnews
      rcases segLoop_synth wayNodes wayNodes [] coords hseg e he with h1 | h2
      · exact absurd h1 (List.not_mem_nil e)
      · exact h2

/-! ### Concrete test fixtures -/

/-- Oracle that reports `(0, 0)` for every node. -/
def fetchZero : Int → ℚ × ℚ := fun _ => (0, 0)

/-- A second, different oracle, for the determinism claim. -/
def fetchAlt : Int → ℚ × ℚ := fun _ => (5, 5)

/-- Oracle knowing only node 2, for the fallback-caching claim. -/
def fetchTwo : Int → ℚ × ℚ := fun n => if n = 2 then (0, 1 / 40) else (9, 9)

/-- Two nodes `1/20000` degrees apart (within a step of `1/10000`) joined by
one way. -/
def stClose : MapState :=
  ⟨[⟨"node", 1, 0, 0, none⟩, ⟨"node", 2, 0, 1 / 20000, none⟩,
    ⟨"way", 10, 0, 0, some [1, 2]⟩],
   [(1, (0, 0)), (2, (0, 1 / 20000))]⟩

/-- Result of `interpolate_nodes` on `stClose` with step `1/10000`. -/
def stCloseOut : MapState :=
  ⟨[⟨"node", 1, 0, 0, none⟩, ⟨"node", 2, 0, 1 / 20000, none⟩,
    ⟨"way", 10, 0, 0, some [1, 2, 1, 2, 2]⟩],
   [(1, (0, 0)), (2, (0, 1 / 20000))]⟩

/-- The §8 scenario of the spec: way `[1, 2]`, `coord(1) = (0, 0)`,
`coord(2) = (0, 0.025)`, step `0.01`. -/
def stFar : MapState :=
  ⟨[⟨"node", 1, 0, 0, none⟩, ⟨"node", 2, 0, 1 / 40, none⟩,
    ⟨"way", 10, 0, 0, some [1, 2]⟩],
   [(1, (0, 0)), (2, (0, 1 / 40))]⟩

/-- Result of `interpolate_nodes` on `stFar` with step `1/100`. -/
def stFarOut : MapState :=
  ⟨[⟨"node", 1, 0, 0, none⟩, ⟨"node", 2, 0, 1 / 40, none⟩,
    ⟨"way", 10, 0, 0, some [1, 2, 1, 1000, 1001, 1002, 2, 2]⟩,
    ⟨"node", 1000, 0, 0, none⟩, ⟨"node", 1001, 0, 1 / 80, none⟩,
    ⟨"node", 1002, 0, 1 / 40, none⟩],
   [(1002, (0, 1 / 40)), (1001, (0, 1 / 80)), (1000, (0, 0)),
    (1, (0, 0)), (2, (0, 1 / 40))]⟩

/-- Result of `interpolate_nodes` on `stFar` with step `-1`. -/
def stFarNegOut : MapState :=
  ⟨[⟨"node", 1, 0, 0, none⟩, ⟨"node", 2, 0, 1 / 40, none⟩,
    ⟨"way", 10, 0, 0, some [1, 2, 1, 2, 2]⟩],
   [(1, (0, 0)), (2, (0, 1 / 40))]⟩

/-- Like `stFar` but with two ways (ids 10 and 11) over the same node pair. -/
def stTwoWays : MapState :=
  ⟨[⟨"node", 1, 0, 0, none⟩, ⟨"node", 2, 0, 1 / 40, none⟩,
    ⟨"way", 10, 0, 0, some [1, 2]⟩, ⟨"way", 11, 0, 0, some [1, 2]⟩],
   [(1, (0, 0)), (2, (0, 1 / 40))]⟩

/-- Result of `interpolate_nodes` on `stTwoWays` with step `1/100`: the two
ways generate the same three synthetic ids twice. -/
def stTwoWaysOut : MapState :=
  ⟨[⟨"node", 1, 0, 0, none⟩, ⟨"node", 2, 0, 1 / 40, none⟩,
    ⟨"way", 10, 0, 0, some [1, 2, 1, 1000, 1001, 1002, 2, 2]⟩,
    ⟨"way", 11, 0, 0, some [1, 2, 1, 1000, 1001, 1002, 2, 2]⟩,
    ⟨"node", 1000, 0, 0, none⟩, ⟨"node", 1001, 0, 1 / 80, none⟩,
    ⟨"node", 1002, 0, 1 / 40, none⟩,
    ⟨"node", 1000, 0, 0, none⟩, ⟨"node", 1001, 0, 1 / 80, none⟩,
    ⟨"node", 1002, 0, 1 / 40, none⟩],
   [(1002, (0, 1 / 40)), (1001, (0, 1 / 80)), (1000, (0, 0)),
    (1002, (0, 1 / 40)), (1001, (0, 1 / 80)), (1000, (0, 0)),
    (1, (0, 0)), (2, (0, 1 / 40))]⟩

/-- A way referencing node 2 whose coordinate is absent from the dict and
from the element list, so the network fallback must supply it. -/
def stMissing : MapState :=
  ⟨[⟨"node", 1, 0, 0, none⟩, ⟨"way", 10, 0, 0, some [1, 2]⟩],
   [(1, (0, 0))]⟩

/-- Result of `interpolate_nodes fetchTwo (1/100)` on `stMissing`. -/
def stMissingOut : MapState :=
  ⟨[⟨"node", 1, 0, 0, none⟩,
    ⟨"way", 10, 0, 0, some [1, 2, 1, 1000, 1001, 1002, 2, 2]⟩,
    ⟨"node", 1000, 0, 0, none⟩, ⟨"node", 1001, 0, 1 / 80, none⟩,
    ⟨"node", 1002, 0, 1 / 40, none⟩],
   [(1002, (0, 1 / 40)), (1001, (0, 1 / 80)), (1000, (0, 0)), (1, (0, 0))]⟩

theorem run_stClose :
    interpolate_nodes fetchZero (1 / 10000) stClose = .ok stCloseOut :=
  interpolate_eval 20 (by with_unfolding_all rfl)

theorem run_stFar :
    interpolate_nodes fetchZero (1 / 100) stFar = .ok stFarOut :=
  interpolate_eval 20 (by with_unfolding_all rfl)

theorem run_stFarNeg :
    interpolate_nodes fetchZero (-1) stFar = .ok stFarNegOut :=
  interpolate_eval 20 (by with_unfolding_all rfl)

theorem run_stFarZero :
    interpolate_nodes fetchZero 0 stFar = .error .divByZero :=
  interpolate_eval_err 20 (by with_unfolding_all rfl)

theorem run_stTwoWays :
    interpolate_nodes fetchZero (1 / 100) stTwoWays = .ok stTwoWaysOut :=
  interpolate_eval 30 (by with_unfolding_all rfl)

theorem run_stMissing :
    interpolate_nodes fetchTwo (1 / 100) stMissing = .ok stMissingOut :=
  interpolate_eval 20 (by with_unfolding_all rfl)

instance (l : List Element) : Decidable (DistinctWayIds l) := by
  unfold DistinctWayIds
  infer_instance

instance (l : List Element) : Decidable (WaysIdSeparated l) := by
  unfold WaysIdSeparated
  infer_instance

instance (elems : List Element) (coords : Coords) :
    Decidable (CoordsCover elems coords) := by
  unfold CoordsCover
  infer_instance

/-! ## Claims -/

/-- **C1** (code bug).  The claim says that for a way whose consecutive
pairs are all within `stepSize`, `interpolate_nodes` leaves the node list
unchanged and creates no synthetic nodes.  On `stClose` the single segment
has squared length `(1/20000)^2 ≤ (1/10000)^2`, and indeed no synthetic
node is created — but the way's node list is rewritten from `[1, 2]` to
`[1, 2, 1, 2, 2]`, because `new_way_nodes` starts as a full copy of
`way_nodes`, the loop appends every node again, and line 163 appends the
last node once more. -/
theorem C1_noop_below_threshold_fails :
    distSq (resolve fetchZero stClose.nodeCoordinates 1)
        (resolve fetchZero stClose.nodeCoordinates 2) ≤ (1 / 10000 : ℚ) ^ 2 ∧
    interpolate_nodes fetchZero (1 / 10000) stClose = .ok stCloseOut ∧
    stCloseOut.elements.length = stClose.elements.length ∧
    (stClose.elements.getD 2 dElem).nodes = some [1, 2] ∧
    (stCloseOut.elements.getD 2 dElem).nodes = some [1, 2, 1, 2, 2] ∧
    ([1, 2, 1, 2, 2] : List Int) ≠ [1, 2] := by
  refine ⟨?_, run_stClose, ?_, ?_, ?_, ?_⟩ <;> with_unfolding_all decide

/-- **C2** (confirmed).  Endpoint preservation: on any successful run, if
element ids are unique across ways (`DistinctWayIds`, the OSM
well-formedness assumption), then every way element's rewritten node list
differs from the original element only in its `nodes` entry, and its first
and last node ids equal the original first and last node ids. -/
theorem C2_endpoint_preservation {fetch : Int → ℚ × ℚ} {step : ℚ}
    {st st' : MapState} {j : ℕ} {wn : List Int}
    (hids : DistinctWayIds st.elements)
    (hrun : interpolate_nodes fetch step st = .ok st')
    (hj : j < st.elements.length)
    (hway : (st.elements.getD j dElem).etype = "way")
    (hwn : (st.elements.getD j dElem).nodes = some wn) :
    ∃ nwn, st'.elements.getD j dElem
        = { st.elements.getD j dElem with nodes := some nwn } ∧
      nwn.head? = wn.head? ∧ nwn.getLast? = wn.getLast? := by
  unfold interpolate_nodes at hrun
  split at hrun
  · exact absurd hrun (by simp)
  · rename_i elems coords hgo
    injection hrun with hst
    subst hst
    have hinit : StrongInv st.elements 0 st.elements := by
      refine ⟨le_refl _, ?_, ?_⟩
      · intro j hj
        exact ⟨fun _ => rfl, fun _ _ => rfl, fun _ hlt => absurd hlt (by omega)⟩
      · intro j hj2 hjo
        exact absurd hjo (by omega)
    obtain ⟨hlen, hmid, -⟩ :=
      goElems_strong st.elements hids 0 st.elements st.nodeCoordinates hgo hinit
    obtain ⟨wn0, nwn, ho, he, hh, hl⟩ := (hmid j hj).2.2 hway (by omega)
    have hwn0 : wn0 = wn := by
      rw [hwn] at ho
      injection ho with ho
      exact ho.symm
    subst hwn0
    exact ⟨nwn, he, hh, hl⟩

/-- Witness for **C2** at the spec's §8 scenario `stFar`: the way keeps
first node 1 and last node 2. -/
theorem C2_endpoint_preservation_witness :
    DistinctWayIds stFar.elements ∧
    (∃ nwn, stFarOut.elements.getD 2 dElem
        = { stFar.elements.getD 2 dElem with nodes := some nwn } ∧
      nwn.head? = ([1, 2] : List Int).head? ∧
      nwn.getLast? = ([1, 2] : List Int).getLast?) := by
  refine ⟨by with_unfolding_all decide, ?_⟩
  exact C2_endpoint_preservation (by with_unfolding_all decide) run_stFar
    (by decide) (by with_unfolding_all decide) (by with_unfolding_all decide)

/-- **C3** (code bug).  The claim says every consecutive pair of the
densified node sequence is within `stepSize` (plus rounding).  On `stFar`
with step `1/100` the output sequence `[1, 2, 1, 1000, 1001, 1002, 2, 2]`
contains the consecutive pair `(2, 1)` whose coordinates are `0.025`
apart — more than double the step, beyond any floating-point epsilon —
because the copied prefix `[1, 2]` is never densified. -/
theorem C3_spacing_bound_fails :
    interpolate_nodes fetchZero (1 / 100) stFar = .ok stFarOut ∧
    (stFarOut.elements.getD 2 dElem).nodes = some [1, 2, 1, 1000, 1001, 1002, 2, 2] ∧
    lookupC stFarOut.nodeCoordinates 1 = some (0, 0) ∧
    lookupC stFarOut.nodeCoordinates 2 = some (0, 1 / 40) ∧
    ((1 / 100 : ℚ) + 1 / 100) ^ 2 < distSq (0, 1 / 40) (0, 0) := by
  refine ⟨run_stFar, ?_, ?_, ?_, ?_⟩ <;> with_unfolding_all decide

/-- **C4** (code bug).  The claim (and the spec's §8 scenario) says only
*interior* samples become synthetic nodes, so the way `[1, 2]` with
`coord(1) = (0, 0)`, `coord(2) = (0, 0.025)` and step `0.01` should gain
exactly one synthetic node at `(0, 0.0125)` and become `[1, s, 2]`.  The
code creates a node for *every* `linspace` sample: three synthetic nodes
`1000 ↦ (0, 0)`, `1001 ↦ (0, 1/80)`, `1002 ↦ (0, 1/40)` (endpoints
duplicated), and the way becomes `[1, 2, 1, 1000, 1001, 1002, 2, 2]`. -/
theorem C4_interior_samples_fails :
    interpolate_nodes fetchZero (1 / 100) stFar = .ok stFarOut ∧
    stFarOut.elements.length = stFar.elements.length + 3 ∧
    stFarOut.elements.getD 3 dElem = ⟨"node", 1000, 0, 0, none⟩ ∧
    stFarOut.elements.getD 4 dElem = ⟨"node", 1001, 0, 1 / 80, none⟩ ∧
    stFarOut.elements.getD 5 dElem = ⟨"node", 1002, 0, 1 / 40, none⟩ ∧
    (stFarOut.elements.getD 2 dElem).nodes = some [1, 2, 1, 1000, 1001, 1002, 2, 2] := by
  refine ⟨run_stFar, ?_, ?_, ?_, ?_, ?_⟩ <;> with_unfolding_all decide

/-- **C5** (code bug).  The claim says the subsequence of original node ids
in a densified way equals the original sequence.  On `stFar` the output is
`[1, 2, 1, 1000, 1001, 1002, 2, 2]`, whose subsequence of original ids is
`[1, 2, 1, 2, 2] ≠ [1, 2]`: originals are duplicated, not merely spaced
out. -/
theorem C5_order_preservation_fails :
    interpolate_nodes fetchZero (1 / 100) stFar = .ok stFarOut ∧
    (stFar.elements.getD 2 dElem).nodes = some [1, 2] ∧
    (stFarOut.elements.getD 2 dElem).nodes = some [1, 2, 1, 1000, 1001, 1002, 2, 2] ∧
    ([1, 2, 1, 1000, 1001, 1002, 2, 2] : List Int).filter
        (fun x => decide (x ∈ ([1, 2] : List Int))) = [1, 2, 1, 2, 2] ∧
    ([1, 2, 1, 2, 2] : List Int) ≠ [1, 2] := by
  refine ⟨run_stFar, ?_, ?_, ?_, ?_⟩ <;> with_unfolding_all decide

/-- **C6** (counterexample).  The claim says a non-positive step size is
reported to the caller before any processing begins, leaving the state
unmodified.  With step `-1` on `stFar` the call completes *without any
error* and returns a modified result set. -/
theorem C6_counterexample :
    (-1 : ℚ) ≤ 0 ∧
    interpolate_nodes fetchZero (-1) stFar = .ok stFarNegOut ∧
    stFarNegOut ≠ stFar := by
  refine ⟨by norm_num, run_stFarNeg, ?_⟩
  with_unfolding_all decide

/-- **C6** (amended).  `interpolate_nodes` performs no step-size
validation: with a negative step it can finish without reporting anything
while still rewriting way node lists, and with step `0` it raises a
`ZeroDivisionError` from `dist // step_size` during segment processing,
not before processing begins. -/
theorem C6_amended :
    ((-1 : ℚ) ≤ 0 ∧ interpolate_nodes fetchZero (-1) stFar = .ok stFarNegOut ∧
      stFarNegOut ≠ stFar) ∧
    ((0 : ℚ) ≤ 0 ∧ interpolate_nodes fetchZero 0 stFar = .error .divByZero) := by
  refine ⟨⟨by norm_num, run_stFarNeg, ?_⟩, by norm_num, run_stFarZero⟩
  with_unfolding_all decide

/-- **C7** (confirmed).  When every node id referenced by a way resolves
from the coordinate lookup (`CoordsCover`), the run does not consult the
network oracle at all: two runs under arbitrary different oracles produce
identical results — in particular identical synthetic node ids and
coordinates. -/
theorem C7_determinism {f g : Int → ℚ × ℚ} {step : ℚ} {st : MapState}
    (hcov : CoordsCover st.elements st.nodeCoordinates) :
    interpolate_nodes f step st = interpolate_nodes g step st := by
  unfold interpolate_nodes
  rw [goElems_cong (g := g) 0 st.elements st.nodeCoordinates hcov]

/-- Witness for **C7**: on `stFar` (all coordinates cached) the oracles
`fetchZero` and `fetchAlt` give the same run. -/
theorem C7_determinism_witness :
    CoordsCover stFar.elements stFar.nodeCoordinates ∧
    interpolate_nodes fetchZero (1 / 100) stFar
      = interpolate_nodes fetchAlt (1 / 100) stFar :=
  ⟨by with_unfolding_all decide, C7_determinism (by with_unfolding_all decide)⟩

/-- **C8** (counterexample).  The claim says a coordinate obtained through
the fallback is stored into the lookup before densification continues.  On
`stMissing`, node 2 is resolvable only through the oracle (`fetchTwo`), the
segment *is* densified with the fetched coordinate (three synthetic nodes
appear, one at node 2's position `(0, 1/40)`), yet the final lookup still
has no entry for node 2. -/
theorem C8_counterexample :
    lookupC stMissing.nodeCoordinates 2 = none ∧
    interpolate_nodes fetchTwo (1 / 100) stMissing = .ok stMissingOut ∧
    stMissingOut.elements.length = stMissing.elements.length + 3 ∧
    stMissingOut.elements.getD 4 dElem = ⟨"node", 1002, 0, 1 / 40, none⟩ ∧
    lookupC stMissingOut.nodeCoordinates 2 = none := by
  refine ⟨?_, run_stMissing, ?_, ?_, ?_⟩ <;> with_unfolding_all decide

/-- **C8** (amended).  A fallback-resolved coordinate is used for the
segment but never written to the coordinate lookup: the lookup changes only
at ids of (synthetic node) elements of the output result set.  Any id that
is not the id of any output element keeps its original lookup entry. -/
theorem C8_amended {fetch : Int → ℚ × ℚ} {step : ℚ} {st st' : MapState}
    {nid : Int}
    (hrun : interpolate_nodes fetch step st = .ok st')
    (hnid : ∀ e ∈ st'.elements, e.id ≠ nid) :
    lookupC st'.nodeCoordinates nid = lookupC st.nodeCoordinates nid := by
  unfold interpolate_nodes at hrun
  split at hrun
  · exact absurd hrun (by simp)
  · rename_i elems coords hgo
    injection hrun with hst
    subst hst
    exact goElems_coords_frame 0 st.elements st.nodeCoordinates hgo nid hnid

/-- Witness for **C8** (amended): node 2 is referenced by the way of
`stMissing`, resolved via the oracle, and its lookup entry is unchanged
(still absent) after the run. -/
theorem C8_amended_witness :
    lookupC stMissingOut.nodeCoordinates 2 = lookupC stMissing.nodeCoordinates 2 :=
  C8_amended run_stMissing (by with_unfolding_all decide)

/-- **C9** (counterexample).  The claim says synthetic ids are unique
within the result set.  On `stTwoWays` (two ways over the same node pair)
the elements appended at positions 4 and 7 are two distinct synthetic node
elements that both carry id 1000 = `synthId 1 0`. -/
theorem C9_unique_ids_fail :
    interpolate_nodes fetchZero (1 / 100) stTwoWays = .ok stTwoWaysOut ∧
    stTwoWays.elements.length = 4 ∧
    (stTwoWaysOut.elements.getD 4 dElem).etype = "node" ∧
    (stTwoWaysOut.elements.getD 7 dElem).etype = "node" ∧
    (stTwoWaysOut.elements.getD 4 dElem).id = synthId 1 0 ∧
    (stTwoWaysOut.elements.getD 7 dElem).id = synthId 1 0 ∧
    stTwoWaysOut.elements.countP (fun e => e.id == 1000) = 2 := by
  refine ⟨run_stTwoWays, ?_, ?_, ?_, ?_, ?_, ?_⟩ <;> with_unfolding_all decide

/-- **C9** (amended).  Every synthetic node created while processing a way
is a node element whose id is derived deterministically from an originating
node id `c` of that way and a sub-index `s` as `synthId c s` — the decimal
representation of `c` with `s` appended, zero-padded to width 3 (wider only
when `s ≥ 1000`).  Uniqueness within the result set does **not** hold (see
the counterexample): the same node heading oversized segments in several
ways reproduces the same ids. -/
theorem C9_amended {fetch : Int → ℚ × ℚ} {step : ℚ} {coords : Coords}
    {wayNodes nwn : List Int} {news : List Element} {c' : Coords}
    (h : processWay fetch step coords wayNodes = .ok (nwn, news, c')) :
    ∀ e ∈ news, e.etype = "node" ∧ ∃ c s, c ∈ wayNodes ∧ e.id = synthId c s :=
  processWay_synth h

/-- Witness for **C9** (amended) on the `stFar` way. -/
theorem C9_amended_witness :
    processWay fetchZero (1 / 100) [(1, (0, 0)), (2, (0, 1 / 40))] [1, 2]
      = .ok ([1, 2, 1, 1000, 1001, 1002, 2, 2],
             [⟨"node", 1000, 0, 0, none⟩, ⟨"node", 1001, 0, 1 / 80, none⟩,
              ⟨"node", 1002, 0, 1 / 40, none⟩],
             [(1002, (0, 1 / 40)), (1001, (0, 1 / 80)), (1000, (0, 0)),
              (1, (0, 0)), (2, (0, 1 / 40))]) ∧
    ((⟨"node", 1001, 0, 1 / 80, none⟩ : Element).etype = "node" ∧
      ∃ c s, c ∈ ([1, 2] : List Int) ∧
        (⟨"node", 1001, 0, 1 / 80, none⟩ : Element).id = synthId c s) := by
  have hrun : processWay fetchZero (1 / 100) [(1, (0, 0)), (2, (0, 1 / 40))] [1, 2]
      = .ok ([1, 2, 1, 1000, 1001, 1002, 2, 2],
             [⟨"node", 1000, 0, 0, none⟩, ⟨"node", 1001, 0, 1 / 80, none⟩,
              ⟨"node", 1002, 0, 1 / 40, none⟩],
             [(1002, (0, 1 / 40)), (1001, (0, 1 / 80)), (1000, (0, 0)),
              (1, (0, 0)), (2, (0, 1 / 40))]) := by
    with_unfolding_all rfl
  exact ⟨hrun, C9_amended hrun _ (by with_unfolding_all decide)⟩

/-- **C10** (confirmed).  If no non-way element of the input shares an id
with a way element (`WaysIdSeparated`), then a successful run removes
nothing, leaves every non-way input element exactly unchanged in place,
changes way elements only in their `nodes` entry (kind, id, lat, lon are
preserved), and every appended element is a node element. -/
theorem C10_frame {fetch : Int → ℚ × ℚ} {step : ℚ} {st st' : MapState}
    (hsep : WaysIdSeparated st.elements)
    (hrun : interpolate_nodes fetch step st = .ok st') :
    st.elements.length ≤ st'.elements.length ∧
    (∀ j, j < st.elements.length →
      ((st.elements.getD j dElem).etype ≠ "way" →
        st'.elements.getD j dElem = st.elements.getD j dElem) ∧
      ((st'.elements.getD j dElem).etype = (st.elements.getD j dElem).etype ∧
       (st'.elements.getD j dElem).id = (st.elements.getD j dElem).id ∧
       (st'.elements.getD j dElem).lat = (st.elements.getD j dElem).lat ∧
       (st'.elements.getD j dElem).lon = (st.elements.getD j dElem).lon)) ∧
    (∀ j, j < st'.elements.length → st.elements.length ≤ j →
      (st'.elements.getD j dElem).etype = "node") := by
  unfold interpolate_nodes at hrun
  split at hrun
  · exact absurd hrun (by simp)
  · rename_i elems coords hgo
    injection hrun with hst
    subst hst
    have hinit : WeakInv st.elements st.elements := by
      refine ⟨le_refl _, ?_, ?_⟩
      · intro j hj
        exact ⟨fun _ => rfl, rfl, rfl, rfl, rfl⟩
      · intro j hj2 hjo
        exact absurd hjo (by omega)
    exact goElems_weak st.elements hsep 0 st.elements st.nodeCoordinates hgo hinit

/-- Witness for **C10** on `stFar`: the node element at position 0 is
untouched and the first appended element is a node. -/
theorem C10_frame_witness :
    WaysIdSeparated stFar.elements ∧
    stFarOut.elements.getD 0 dElem = stFar.elements.getD 0 dElem ∧
    (stFarOut.elements.getD 3 dElem).etype = "node" := by
  have hsep : WaysIdSeparated stFar.elements := by with_unfolding_all decide
  have h := C10_frame hsep run_stFar
  exact ⟨hsep,
    (h.2.1 0 (by with_unfolding_all decide)).1 (by with_unfolding_all decide),
    h.2.2 3 (by with_unfolding_all decide) (by with_unfolding_all decide)⟩

end StravaArt
